import Mathlib

/-!
Shallow embedding of the ComicMaker02 program (make_graphic_novel.py) and
proofs of its specified properties.

Python strs are modelled as List Char, Python ints as Int (floor division
written Int.fdiv, matching Python's // operator), image sizes as Int × Int,
and colors as List Nat (Python tuples of channel values).  Pillow images are
modelled by the inductive type Img, which records how each image was built
(the library operations applied to it); Pillow drawing calls are modelled by
the list of raster primitives they emit, where a primitive invoked with
fill=None (and no outline) draws nothing, as in Pillow.
-/

namespace ComicMaker

/-- A color: a tuple of channel values, e.g. [255, 255, 255, 230]. -/
abbrev Color := List Nat

/-- A font, abstracted to its metric function: getbbox returns the
(x0, y0, x1, y1) bounding box the library would report for a string. -/
structure Font where
  getbbox : List Char → Int × Int × Int × Int

/-- Rendered width of a string under a font, as the source computes it:
bbox[2] - bbox[0]. -/
def fontWidth (font : Font) (s : List Char) : Int :=
  (font.getbbox s).2.2.1 - (font.getbbox s).1

/-- Whitespace characters recognised by Python str.split() (ASCII range). -/
def pyIsSpace (c : Char) : Bool :=
  c == ' ' || c == '\t' || c == '\n' || c == '\r' ||
    c == Char.ofNat 11 || c == Char.ofNat 12

/-- Helper for splitWs: scans the characters, accumulating the current word
(in reverse) in acc, emitting a word at each whitespace boundary. -/
def splitWsAux : List Char → List Char → List (List Char)
  | [], acc => if acc = [] then [] else [acc.reverse]
  | c :: cs, acc =>
    if pyIsSpace c then
      if acc = [] then splitWsAux cs [] else acc.reverse :: splitWsAux cs []
    else splitWsAux cs (c :: acc)

/-- Python str.split() with no arguments: split on runs of whitespace,
discarding empty tokens. -/
def splitWs (cs : List Char) : List (List Char) :=
  splitWsAux cs []

/-- Loop body of wrap_text: line is the line under construction, lines the
committed lines (in order), and the first argument the remaining words. -/
def wrapLoop (font : Font) (max_width : Int) :
    List (List Char) → List Char → List (List Char) → List (List Char)
  | [], line, lines => lines ++ [line]
  | w :: ws, line, lines =>
    let test := line ++ [' '] ++ w
    let wwidth := fontWidth font test
    if wwidth ≤ max_width then wrapLoop font max_width ws test lines
    else wrapLoop font max_width ws w (lines ++ [line])

/-- wrap_text from the source: greedy word wrap using font metrics. -/
def wrap_text (text : List Char) (font : Font) (max_width : Int) :
    List (List Char) :=
  let words := splitWs text
  match words with
  | [] => []
  | w :: ws => wrapLoop font max_width ws w []

/-- Join a list of words with single spaces (Python " ".join). -/
def joinSp (ws : List (List Char)) : List Char :=
  List.intercalate [' '] ws

/-- A word is good when it is nonempty and contains no whitespace; every
token produced by splitWs is good. -/
def GoodWord (w : List Char) : Prop :=
  w ≠ [] ∧ ∀ c ∈ w, pyIsSpace c = false

/-- Word-level image of wrapLoop: the line under construction and the
committed lines are kept as lists of words instead of joined strings. -/
def wrapLoopW (font : Font) (max_width : Int) :
    List (List Char) → List (List Char) → List (List (List Char)) →
    List (List (List Char))
  | [], chunk, chunks => chunks ++ [chunk]
  | w :: ws, chunk, chunks =>
    if fontWidth font (joinSp (chunk ++ [w])) ≤ max_width then
      wrapLoopW font max_width ws (chunk ++ [w]) chunks
    else wrapLoopW font max_width ws [w] (chunks ++ [chunk])

theorem joinSp_nil : joinSp [] = [] := rfl

theorem joinSp_single (a : List Char) : joinSp [a] = a := by
  simp [joinSp, List.intercalate]

theorem joinSp_cons_cons (a b : List Char) (t : List (List Char)) :
    joinSp (a :: b :: t) = a ++ ' ' :: joinSp (b :: t) := by
  simp [joinSp, List.intercalate]

theorem joinSp_append_single (chunk : List (List Char)) (w : List Char)
    (h : chunk ≠ []) :
    joinSp (chunk ++ [w]) = joinSp chunk ++ ' ' :: w := by
  induction chunk with
  | nil => exact absurd rfl h
  | cons a t ih =>
    cases t with
    | nil => simp [joinSp_cons_cons, joinSp_single]
    | cons b t2 =>
      have h2 := ih (by simp)
      simp only [List.cons_append] at h2 ⊢
      rw [joinSp_cons_cons, joinSp_cons_cons, h2]
      simp

theorem joinSp_append (a bs : List (List Char)) (ha : a ≠ []) (hb : bs ≠ []) :
    joinSp (a ++ bs) = joinSp a ++ ' ' :: joinSp bs := by
  induction a with
  | nil => exact absurd rfl ha
  | cons x t ih =>
    cases t with
    | nil =>
      cases bs with
      | nil => exact absurd rfl hb
      | cons b t2 => simp [joinSp_cons_cons, joinSp_single]
    | cons y t2 =>
      have ihr := ih (by simp)
      simp only [List.cons_append] at ihr ⊢
      rw [joinSp_cons_cons, joinSp_cons_cons, ihr]
      simp

/-- wrapLoop computes the joined image of wrapLoopW. -/
theorem wrapLoop_eq_wrapLoopW (font : Font) (max_width : Int) :
    ∀ (ws : List (List Char)) (chunk : List (List Char))
      (chunks : List (List (List Char))), chunk ≠ [] →
      wrapLoop font max_width ws (joinSp chunk) (chunks.map joinSp) =
        (wrapLoopW font max_width ws chunk chunks).map joinSp := by
  intro ws
  induction ws with
  | nil => intro chunk chunks _; simp [wrapLoop, wrapLoopW]
  | cons w ws ih =>
    intro chunk chunks hchunk
    have hkey : joinSp chunk ++ [' '] ++ w = joinSp (chunk ++ [w]) := by
      rw [joinSp_append_single chunk w hchunk]; simp
    simp only [wrapLoop, wrapLoopW]
    rw [hkey]
    by_cases hfit :
        fontWidth font (joinSp (chunk ++ [w])) ≤ max_width
    · rw [if_pos hfit, if_pos hfit]
      exact ih (chunk ++ [w]) chunks (by simp)
    · rw [if_neg hfit, if_neg hfit]
      have h3 : (chunks.map joinSp) ++ [joinSp chunk] =
          (chunks ++ [chunk]).map joinSp := by simp
      rw [h3]
      have h4 : (w : List Char) = joinSp [w] := (joinSp_single w).symm
      conv_lhs => rw [h4]
      exact ih [w] (chunks ++ [chunk]) (by simp)

/-- The words of the wrapped lines are the committed words, the current
chunk, and the remaining words, in order. -/
theorem wrapLoopW_flatten (font : Font) (max_width : Int) :
    ∀ (ws : List (List Char)) (chunk : List (List Char))
      (chunks : List (List (List Char))),
      (wrapLoopW font max_width ws chunk chunks).flatten =
        chunks.flatten ++ chunk ++ ws := by
  intro ws
  induction ws with
  | nil => intro chunk chunks; simp [wrapLoopW]
  | cons w ws ih =>
    intro chunk chunks
    simp only [wrapLoopW]
    by_cases hfit : fontWidth font (joinSp (chunk ++ [w])) ≤ max_width
    · rw [if_pos hfit, ih]; simp
    · rw [if_neg hfit, ih]; simp

/-- Every line produced by wrapLoopW is a nonempty chunk of words. -/
theorem wrapLoopW_ne_nil (font : Font) (max_width : Int) :
    ∀ (ws : List (List Char)) (chunk : List (List Char))
      (chunks : List (List (List Char))), chunk ≠ [] →
      (∀ c ∈ chunks, c ≠ []) →
      ∀ c ∈ wrapLoopW font max_width ws chunk chunks, c ≠ [] := by
  intro ws
  induction ws with
  | nil =>
    intro chunk chunks hchunk hchunks c hc
    rcases List.mem_append.1 hc with h | h
    · exact hchunks c h
    · simp at h; simpa [h] using hchunk
  | cons w ws ih =>
    intro chunk chunks hchunk hchunks c hc
    simp only [wrapLoopW] at hc
    by_cases hfit : fontWidth font (joinSp (chunk ++ [w])) ≤ max_width
    · rw [if_pos hfit] at hc
      exact ih (chunk ++ [w]) chunks (by simp) hchunks c hc
    · rw [if_neg hfit] at hc
      refine ih [w] (chunks ++ [chunk]) (by simp) ?_ c hc
      intro d hd
      rcases List.mem_append.1 hd with h | h
      · exact hchunks d h
      · simp at h; simpa [h] using hchunk

/-- If every tentative line extension fits, wrapLoopW commits a single line
holding all the words. -/
theorem wrapLoopW_all_fit (font : Font) (max_width : Int) :
    ∀ (ws : List (List Char)) (chunk : List (List Char))
      (chunks : List (List (List Char))),
      (∀ j, j < ws.length →
        fontWidth font (joinSp (chunk ++ ws.take (j+1))) ≤ max_width) →
      wrapLoopW font max_width ws chunk chunks = chunks ++ [chunk ++ ws] := by
  intro ws
  induction ws with
  | nil => intro chunk chunks _; simp [wrapLoopW]
  | cons w ws ih =>
    intro chunk chunks hfit
    have h0 : fontWidth font (joinSp (chunk ++ [w])) ≤ max_width := by
      have := hfit 0 (by simp)
      simpa using this
    simp only [wrapLoopW, if_pos h0]
    rw [ih (chunk ++ [w]) chunks ?_]
    · simp
    · intro j hj
      have := hfit (j+1) (by simpa using Nat.succ_lt_succ hj)
      simpa [List.append_assoc] using this

/-- If every two-word line overflows, wrapLoopW only ever commits
single-word lines. -/
theorem wrapLoopW_narrow (font : Font) (max_width : Int)
    (allW : List (List Char))
    (hnar : ∀ a b, a ∈ allW → b ∈ allW →
      max_width < fontWidth font (a ++ ' ' :: b)) :
    ∀ (ws : List (List Char)) (w : List Char)
      (chunks : List (List (List Char))), w ∈ allW → (∀ u ∈ ws, u ∈ allW) →
      ∀ c ∈ wrapLoopW font max_width ws [w] chunks,
        c ∈ chunks ∨ ∃ u ∈ allW, c = [u] := by
  intro ws
  induction ws with
  | nil =>
    intro w chunks hw _ c hc
    rcases List.mem_append.1 hc with h | h
    · exact Or.inl h
    · simp at h; exact Or.inr ⟨w, hw, h⟩
  | cons w2 ws ih =>
    intro w chunks hw hws c hc
    simp only [wrapLoopW] at hc
    have hjoin : joinSp ([w] ++ [w2]) = w ++ ' ' :: w2 := by
      simp [joinSp_cons_cons, joinSp_single]
    have hbig : max_width < fontWidth font (joinSp ([w] ++ [w2])) := by
      rw [hjoin]; exact hnar w w2 hw (hws w2 (by simp))
    rw [if_neg (by omega)] at hc
    have := ih w2 (chunks ++ [[w]]) (hws w2 (by simp))
      (fun u hu => hws u (by simp [hu])) c hc
    rcases this with h | h
    · rcases List.mem_append.1 h with h2 | h2
      · exact Or.inl h2
      · simp at h2; exact Or.inr ⟨w, hw, h2⟩
    · exact Or.inr h

theorem splitWsAux_no_space :
    ∀ (w : List Char) (cs acc : List Char),
      (∀ c ∈ w, pyIsSpace c = false) →
      splitWsAux (w ++ cs) acc = splitWsAux cs (w.reverse ++ acc) := by
  intro w
  induction w with
  | nil => intro cs acc _; simp
  | cons c w ih =>
    intro cs acc hw
    have hc : pyIsSpace c = false := hw c (by simp)
    simp only [List.cons_append, splitWsAux, hc, Bool.false_eq_true, if_false,
      List.append_eq]
    rw [ih cs (c :: acc) (fun d hd => hw d (by simp [hd]))]
    simp

theorem splitWsAux_space (c : Char) (cs acc : List Char)
    (hc : pyIsSpace c = true) :
    splitWsAux (c :: cs) acc =
      if acc = [] then splitWsAux cs []
      else acc.reverse :: splitWsAux cs [] := by
  simp [splitWsAux, hc]

/-- Splitting the space-joined concatenation of good words recovers the
words. -/
theorem splitWs_joinSp :
    ∀ (ws : List (List Char)), (∀ w ∈ ws, GoodWord w) →
      splitWs (joinSp ws) = ws := by
  intro ws
  induction ws with
  | nil => intro _; simp [joinSp_nil, splitWs, splitWsAux]
  | cons w rest ih =>
    intro hgood
    obtain ⟨hw1, hw2⟩ := hgood w (by simp)
    cases rest with
    | nil =>
      rw [joinSp_single, splitWs]
      have := splitWsAux_no_space w [] [] hw2
      simp only [List.append_nil] at this
      rw [this]
      simp [splitWsAux, hw1]
    | cons r t =>
      rw [joinSp_cons_cons, splitWs]
      have h1 : w ++ ' ' :: joinSp (r :: t) =
          w ++ (' ' :: joinSp (r :: t)) := by simp
      rw [h1, splitWsAux_no_space w _ [] hw2]
      rw [splitWsAux_space ' ' _ _ (by simp [pyIsSpace])]
      have hrev : w.reverse ++ [] ≠ [] := by simpa using hw1
      rw [if_neg hrev]
      have ihr := ih (fun u hu => hgood u (by simp [hu]))
      rw [splitWs] at ihr
      simp [ihr]

theorem splitWsAux_good :
    ∀ (cs acc : List Char), (∀ c ∈ acc, pyIsSpace c = false) →
      ∀ w ∈ splitWsAux cs acc, GoodWord w := by
  intro cs
  induction cs with
  | nil =>
    intro acc hacc w hw
    by_cases h : acc = []
    · simp [splitWsAux, h] at hw
    · simp only [splitWsAux, if_neg h, List.mem_singleton] at hw
      subst hw
      exact ⟨by simpa using h, fun c hc => hacc c (by simpa using hc)⟩
  | cons c cs ih =>
    intro acc hacc w hw
    by_cases hsp : pyIsSpace c = true
    · rw [splitWsAux_space c cs acc hsp] at hw
      by_cases h : acc = []
      · rw [if_pos h] at hw
        exact ih [] (by simp) w hw
      · rw [if_neg h] at hw
        rcases List.mem_cons.1 hw with h2 | h2
        · subst h2
          exact ⟨by simpa using h, fun d hd => hacc d (by simpa using hd)⟩
        · exact ih [] (by simp) w h2
    · simp only [splitWsAux, eq_false_of_ne_true hsp] at hw
      refine ih (c :: acc) ?_ w hw
      intro d hd
      rcases List.mem_cons.1 hd with h2 | h2
      · subst h2; exact eq_false_of_ne_true hsp
      · exact hacc d h2

/-- Every token of splitWs is nonempty and whitespace-free. -/
theorem splitWs_good (cs : List Char) : ∀ w ∈ splitWs cs, GoodWord w :=
  splitWsAux_good cs [] (by simp)

/-- A string of whitespace only has no tokens. -/
theorem splitWs_all_space :
    ∀ (cs : List Char), (∀ c ∈ cs, pyIsSpace c = true) → splitWs cs = [] := by
  intro cs
  induction cs with
  | nil => intro _; rfl
  | cons c cs ih =>
    intro h
    rw [splitWs, splitWsAux_space c cs [] (h c (by simp)), if_pos rfl]
    exact ih fun d hd => h d (by simp [hd])

/-- Joining already-joined nonempty chunks with spaces equals joining the
flattened word list with spaces. -/
theorem joinSp_map_joinSp :
    ∀ (W : List (List (List Char))), (∀ c ∈ W, c ≠ []) →
      joinSp (W.map joinSp) = joinSp W.flatten := by
  intro W
  induction W with
  | nil => intro _; simp [joinSp_nil]
  | cons c W ih =>
    intro hW
    cases W with
    | nil => simp [joinSp_single]
    | cons d t =>
      have hflat : (d :: t).flatten ≠ [] := by
        have hd : d ≠ [] := hW d (by simp)
        simp only [List.flatten_cons]
        intro h
        exact hd (List.append_eq_nil.1 h).1
      have ihr := ih (fun u hu => hW u (by simp [hu]))
      calc joinSp ((c :: d :: t).map joinSp)
          = joinSp (joinSp c :: joinSp d :: t.map joinSp) := by simp
        _ = joinSp c ++ ' ' :: joinSp (joinSp d :: t.map joinSp) :=
            joinSp_cons_cons _ _ _
        _ = joinSp c ++ ' ' :: joinSp ((d :: t).map joinSp) := by simp
        _ = joinSp c ++ ' ' :: joinSp ((d :: t).flatten) := by rw [ihr]
        _ = joinSp (c ++ (d :: t).flatten) :=
            (joinSp_append c _ (hW c (by simp)) hflat).symm
        _ = joinSp ((c :: d :: t).flatten) := by simp

/-- wrap_text computes the joined image of the word-level wrap started on
the first word. -/
theorem wrap_text_eq_wrapLoopW (t : List Char) (font : Font) (m : Int)
    (w : List Char) (ws : List (List Char)) (h : splitWs t = w :: ws) :
    wrap_text t font m = (wrapLoopW font m ws [w] []).map joinSp := by
  unfold wrap_text
  rw [h]
  show wrapLoop font m ws w [] = _
  have h1 : (w : List Char) = joinSp [w] := (joinSp_single w).symm
  conv_lhs => rw [h1]
  have h2 := wrapLoop_eq_wrapLoopW font m ws [w] [] (by simp)
  simpa using h2

end ComicMaker

namespace ComicMaker

/-- C10: wrap_text loses, duplicates and reorders no words: splitting the
space-joined concatenation of its output lines yields exactly the
whitespace-split word list of the input, and a whitespace-only (or empty)
input produces the empty list of lines. -/
theorem wrap_text_words_conserved (t : List Char) (font : Font) (m : Int) :
    splitWs (joinSp (wrap_text t font m)) = splitWs t ∧
    ((∀ c ∈ t, pyIsSpace c = true) → wrap_text t font m = []) := by
  constructor
  · cases hsplit : splitWs t with
    | nil =>
      rw [wrap_text, hsplit]
      simp [joinSp_nil, splitWs, splitWsAux]
    | cons w ws =>
      rw [wrap_text_eq_wrapLoopW t font m w ws hsplit]
      have hne : ∀ c ∈ wrapLoopW font m ws [w] [], c ≠ [] :=
        wrapLoopW_ne_nil font m ws [w] [] (by simp) (by simp)
      rw [joinSp_map_joinSp _ hne]
      have hflat : (wrapLoopW font m ws [w] []).flatten = w :: ws := by
        rw [wrapLoopW_flatten]; simp
      rw [hflat]
      have hgood : ∀ u ∈ (w :: ws), GoodWord u := by
        intro u hu
        rw [← hsplit] at hu
        exact splitWs_good t u hu
      rw [splitWs_joinSp (w :: ws) hgood]
  · intro hsp
    have h0 : splitWs t = [] := splitWs_all_space t hsp
    rw [wrap_text, h0]

/-- Witness for the word-conservation property of wrap_text at concrete
inputs, including a whitespace-only input. -/
theorem wrap_text_words_conserved_witness :
    splitWs (joinSp (wrap_text ['a', ' ', 'b']
        ⟨fun s => (0, 0, (s.length : Int), 0)⟩ 10)) =
      splitWs ['a', ' ', 'b'] ∧
    wrap_text [' ', ' '] ⟨fun s => (0, 0, (s.length : Int), 0)⟩ 10 = [] := by
  constructor
  · exact (wrap_text_words_conserved _ _ _).1
  · exact (wrap_text_words_conserved _ _ _).2 (by decide)

/-- C3: for input with at least one word, if every tentative prefix-append
test fits then wrap_text returns a single line holding all words in order,
and if every two-word test line overflows then every returned line is a
single input word. -/
theorem wrap_text_wide_and_narrow (t : List Char) (font : Font) (m : Int)
    (hN : splitWs t ≠ []) :
    ((∀ k, 1 ≤ k → k < (splitWs t).length →
        fontWidth font (joinSp ((splitWs t).take (k+1))) ≤ m) →
      wrap_text t font m = [joinSp (splitWs t)]) ∧
    ((∀ a b, a ∈ splitWs t → b ∈ splitWs t →
        m < fontWidth font (a ++ ' ' :: b)) →
      ∀ l ∈ wrap_text t font m, l ∈ splitWs t) := by
  obtain ⟨w, ws, hsplit⟩ : ∃ w ws, splitWs t = w :: ws := by
    cases h : splitWs t with
    | nil => exact absurd h hN
    | cons a b => exact ⟨a, b, rfl⟩
  constructor
  · intro hfit
    rw [wrap_text_eq_wrapLoopW t font m w ws hsplit]
    rw [wrapLoopW_all_fit font m ws [w] [] ?_]
    · simp [hsplit]
    · intro j hj
      have hk := hfit (j+1) (by omega)
        (by rw [hsplit]; simp only [List.length_cons]; omega)
      rw [hsplit] at hk
      simpa using hk
  · intro hnar l hl
    rw [wrap_text_eq_wrapLoopW t font m w ws hsplit] at hl
    obtain ⟨c, hc, rfl⟩ := List.mem_map.1 hl
    have hres := wrapLoopW_narrow font m (splitWs t) hnar ws w []
      (by rw [hsplit]; simp)
      (by intro u hu; rw [hsplit]; simp [hu]) c hc
    rcases hres with h | ⟨u, hu, rfl⟩
    · simp at h
    · rw [joinSp_single]; exact hu

/-- A concrete font whose reported width is the character count. -/
def unitFont : Font := ⟨fun s => (0, 0, (s.length : Int), 0)⟩

/-- Witness for the wide and narrow wrap properties at concrete inputs. -/
theorem wrap_text_wide_and_narrow_witness :
    wrap_text ['a', ' ', 'b'] unitFont 10 =
      [joinSp (splitWs ['a', ' ', 'b'])] ∧
    (∀ l ∈ wrap_text ['a', ' ', 'b'] unitFont 1,
      l ∈ splitWs ['a', ' ', 'b']) := by
  constructor
  · refine (wrap_text_wide_and_narrow ['a', ' ', 'b'] unitFont 10
      (by decide)).1 ?_
    intro k hk1 hk2
    have hl : (splitWs ['a', ' ', 'b']).length = 2 := by decide
    rw [hl] at hk2
    have hk : k = 1 := by omega
    subst hk
    decide
  · refine (wrap_text_wide_and_narrow ['a', ' ', 'b'] unitFont 1
      (by decide)).2 ?_
    intro a b ha hb
    have hs : splitWs ['a', ' ', 'b'] = [['a'], ['b']] := by decide
    rw [hs] at ha hb
    simp only [List.mem_cons, List.mem_singleton, List.not_mem_nil,
      or_false] at ha hb
    rcases ha with rfl | rfl <;> rcases hb with rfl | rfl <;> decide

/-- A raster primitive actually drawn onto an image by an ImageDraw call. -/
inductive Prim where
  | pieslice (box : List Int) (start stop : Int) (fill : Color)
  | rect (box : List Int) (fill : Color)
  | polygon (pts : List (Int × Int)) (fill : Color)
  | text (pos : Int × Int) (s : List Char) (fill : Color)
deriving DecidableEq

/-- ImageDraw.pieslice: with fill=None (and no outline, the default in this
program) Pillow draws nothing. -/
def pieslice (box : List Int) (start stop : Int) (fill : Option Color) :
    List Prim :=
  match fill with
  | none => []
  | some f => [Prim.pieslice box start stop f]

/-- ImageDraw.rectangle: with fill=None (and no outline) Pillow draws
nothing. -/
def rectangle (box : List Int) (fill : Option Color) : List Prim :=
  match fill with
  | none => []
  | some f => [Prim.rect box f]

/-- ImageDraw.polygon with a fill color. -/
def polygon (pts : List (Int × Int)) (fill : Color) : List Prim :=
  [Prim.polygon pts fill]

/-- draw_round_rect from the source: four corner pieslices plus two filling
rectangles; a truthy outline triggers a recursive call that passes
fill=None and outline=None. -/
def draw_round_rect (xy : Int × Int × Int × Int) (radius : Int)
    (fill outline : Option Color) (outline_width : Int) : List Prim :=
  let x0 := xy.1
  let y0 := xy.2.1
  let x1 := xy.2.2.1
  let y1 := xy.2.2.2
  pieslice [x0, y0, x0 + 2*radius, y0 + 2*radius] 180 270 fill ++
  pieslice [x1 - 2*radius, y0, x1, y0 + 2*radius] 270 0 fill ++
  pieslice [x0, y1 - 2*radius, x0 + 2*radius, y1] 90 180 fill ++
  pieslice [x1 - 2*radius, y1 - 2*radius, x1, y1] 0 90 fill ++
  rectangle [x0 + radius, y0, x1 - radius, y1] fill ++
  rectangle [x0, y0 + radius, x1, y1 - radius] fill ++
  match outline with
  | none => []
  | some _ =>
    draw_round_rect
      (x0 + outline_width, y0 + outline_width,
        x1 - outline_width, y1 - outline_width)
      (max 0 (radius - outline_width)) none none outline_width
termination_by outline.elim 0 fun _ => 1
decreasing_by simp only [Option.elim]; omega

/-- add_text_bubble from the source, as the list of primitives it draws on
the page: the tail triangle, then the rounded box, then the wrapped text
lines. -/
def add_text_bubble (text : List Char) (bubble_box : Int × Int × Int × Int)
    (tail_coords : (Int × Int) × (Int × Int)) (font : Font)
    (bubble_fill bubble_outline : Color) (padding radius : Int) :
    List Prim :=
  let x0 := bubble_box.1
  let y0 := bubble_box.2.1
  let x1 := bubble_box.2.2.1
  let y1 := bubble_box.2.2.2
  let bx := tail_coords.1.1
  let b_y := tail_coords.1.2
  let tx := tail_coords.2.1
  let ty := tail_coords.2.2
  let tail := [(bx, b_y), (tx, ty), (bx + (tx - bx).fdiv 2, b_y)]
  polygon tail bubble_fill ++
  draw_round_rect (x0, y0, x1, y1) radius (some bubble_fill)
    (some bubble_outline) 2 ++
  (let max_text_width := (x1 - x0) - 2*padding
   let lines := wrap_text text font max_text_width
   let line_h := (font.getbbox ['A', 'y']).2.2.2 -
     (font.getbbox ['A', 'y']).2.1
   let ty_start := y0 + padding
   lines.enum.map fun p =>
     Prim.text (x0 + padding, ty_start + (p.1 : Int) * line_h) p.2 [0, 0, 0])

/-- C6: draw_round_rect with a non-None outline emits exactly the same
primitives as with outline=None, because the recursive outline call passes
fill=None and outline=None and so draws nothing. -/
theorem draw_round_rect_outline_noop (xy : Int × Int × Int × Int)
    (radius : Int) (fill : Option Color) (c : Color) (ow : Int) :
    draw_round_rect xy radius fill (some c) ow =
      draw_round_rect xy radius fill none ow := by
  have hin : ∀ (xy2 : Int × Int × Int × Int) (r2 ow2 : Int),
      draw_round_rect xy2 r2 none none ow2 = [] := by
    intro xy2 r2 ow2
    unfold draw_round_rect
    simp [pieslice, rectangle]
  unfold draw_round_rect
  simp [hin]

/-- C7: the bubble's tail triangle, with synthetic third vertex at the
midpoint of the base and tip x-coordinates at the base's y, is drawn first,
before the rounded box, filled with the bubble fill color. -/
theorem add_text_bubble_tail_first (text : List Char) (x0 y0 x1 y1 : Int)
    (bx b_y tx ty : Int) (font : Font) (fill outl : Color)
    (padding radius : Int) :
    ∃ rest : List Prim,
      add_text_bubble text (x0, y0, x1, y1) ((bx, b_y), (tx, ty)) font
          fill outl padding radius =
        Prim.polygon [(bx, b_y), (tx, ty), (bx + (tx - bx).fdiv 2, b_y)]
            fill ::
          (draw_round_rect (x0, y0, x1, y1) radius (some fill) (some outl)
              2 ++ rest) :=
  ⟨_, rfl⟩

/-- Modelled from the Pillow library (Image.thumbnail): the rounding used
when the width is recomputed from the target height; chooses between floor
and ceil of y*w/h, minimising the distance of n/y to the aspect ratio w/h
(the comparison is cross-multiplied by h*y), preferring floor on ties, and
clamping to at least 1. -/
def round_aspect_x (w h y : Int) : Int :=
  let n := y * w
  let fl := n.fdiv h
  let ce := (n + h - 1).fdiv h
  max
    (if (w * y - fl * h).natAbs ≤ (w * y - ce * h).natAbs then fl else ce) 1

/-- Modelled from Pillow (Image.thumbnail): the rounding used when the
height is recomputed from the target width; the key is 0 for n=0 and
otherwise the distance of x/n to the aspect ratio (cross-multiplied by
h*fl*ce); floor preferred on ties, clamped to at least 1. -/
def round_aspect_y (w h x : Int) : Int :=
  let n := x * h
  let fl := n.fdiv w
  let ce := (n + w - 1).fdiv w
  let pick :=
    if fl = 0 then fl
    else if ((w * fl - x * h).natAbs : Int) * ce ≤
        ((w * ce - x * h).natAbs : Int) * fl then fl
    else ce
  max pick 1

/-- Modelled from Pillow (Image.thumbnail): the size the in-place resize
targets. If the image already fits within the target it is left as is;
otherwise the relatively longer target side is recomputed from the aspect
ratio. Faithful for positive sizes, the domain on which Pillow defines
the operation. -/
def pilThumbSize (size target : Int × Int) : Int × Int :=
  let w := size.1
  let h := size.2
  let x := target.1
  let y := target.2
  if w ≤ x ∧ h ≤ y then (w, h)
  else if w * y ≤ x * h then (round_aspect_x w h y, y)
  else (x, round_aspect_y w h x)

theorem fdiv_le_of_lt_mul {n h m : Int} (h0 : 0 < h)
    (hn : n < (m + 1) * h) : n.fdiv h ≤ m := by
  rw [Int.fdiv_eq_ediv _ (le_of_lt h0)]
  have h2 := (Int.ediv_lt_iff_lt_mul h0).2 hn
  omega

/-- The thumbnail target size never exceeds the original size (Pillow's
thumbnail only ever shrinks). -/
theorem pilThumbSize_le (s t : Int × Int) (hw : 1 ≤ s.1) (hh : 1 ≤ s.2)
    (hx : 1 ≤ t.1) (hy : 1 ≤ t.2) :
    (pilThumbSize s t).1 ≤ s.1 ∧ (pilThumbSize s t).2 ≤ s.2 := by
  obtain ⟨w, h⟩ := s
  obtain ⟨x, y⟩ := t
  simp only at hw hh hx hy
  simp only [pilThumbSize]
  by_cases hA : w ≤ x ∧ h ≤ y
  · rw [if_pos hA]; exact ⟨le_refl w, le_refl h⟩
  · rw [if_neg hA]
    by_cases hB : w * y ≤ x * h
    · rw [if_pos hB]
      have hyh : y < h := by
        by_contra hcon
        push_neg at hcon
        have h1 : w * h ≤ w * y :=
          mul_le_mul_of_nonneg_left hcon (by omega)
        have h2 : w * h ≤ x * h := le_trans h1 hB
        have h3 : w ≤ x := le_of_mul_le_mul_right h2 (by omega)
        exact hA ⟨h3, hcon⟩
      refine ⟨?_, le_of_lt hyh⟩
      have hyw : y * w ≤ (h - 1) * w :=
        mul_le_mul_of_nonneg_right (by omega) (by omega)
      have hfl : (y * w).fdiv h ≤ w :=
        fdiv_le_of_lt_mul (by omega) (by nlinarith)
      have hce : (y * w + h - 1).fdiv h ≤ w :=
        fdiv_le_of_lt_mul (by omega) (by nlinarith)
      simp only [round_aspect_x, max_le_iff]
      constructor
      · split <;> assumption
      · omega
    · rw [if_neg hB]
      push_neg at hB
      have hxw : x < w := by
        by_contra hc
        push_neg at hc
        have h1 : w * h ≤ x * h :=
          mul_le_mul_of_nonneg_right hc (by omega)
        have h2 : w * h < w * y := lt_of_le_of_lt h1 hB
        have h3 : h < y := lt_of_mul_lt_mul_left h2 (by omega)
        exact hA ⟨hc, le_of_lt h3⟩
      refine ⟨le_of_lt hxw, ?_⟩
      have hxh : x * h ≤ (w - 1) * h :=
        mul_le_mul_of_nonneg_right (by omega) (by omega)
      have hfl : (x * h).fdiv w ≤ h :=
        fdiv_le_of_lt_mul (by omega) (by nlinarith)
      have hce : (x * h + w - 1).fdiv w ≤ h :=
        fdiv_le_of_lt_mul (by omega) (by nlinarith)
      simp only [round_aspect_y, max_le_iff]
      constructor
      · split
        · assumption
        · split <;> assumption
      · omega

/-- An in-memory Pillow image, represented by how it was built: Image.new,
Image.open of a file (abstract content, known size), mode conversions,
resize (the effect of thumbnail), paste, and ImageDraw drawing. -/
inductive Img where
  | new (size : Int × Int) (color : Color)
  | file (size : Int × Int)
  | convertRGBA (base : Img)
  | convertRGB (base : Img)
  | resized (base : Img) (size : Int × Int)
  | pasted (base : Img) (src : Img) (pos : Int × Int)
  | drawn (base : Img) (ops : List Prim)
deriving DecidableEq

/-- The (width, height) of an image: Image.new and resize set it; paste,
drawing and mode conversion preserve it (as in Pillow). -/
def Img.size : Img → Int × Int
  | .new s _ => s
  | .file s => s
  | .convertRGBA b => b.size
  | .convertRGB b => b.size
  | .resized _ s => s
  | .pasted b _ _ => b.size
  | .drawn b _ => b.size

/-- Image.thumbnail: in-place shrink-to-fit; modelled as the value of the
image after the call. -/
def Img.thumbnail (i : Img) (target : Int × Int) : Img :=
  Img.resized i (pilThumbSize i.size target)

/-- create_panel_from_image from the source: open the image (the abstract
file image src), convert to RGBA, thumbnail into target_size, and paste it
centered onto a transparent canvas of exactly target_size. -/
def create_panel_from_image (src : Img) (target_size : Int × Int) : Img :=
  let img := Img.convertRGBA src
  let img2 := img.thumbnail target_size
  let w := img2.size.1
  let h := img2.size.2
  let canvas := Img.new target_size [255, 255, 255, 0]
  Img.pasted canvas img2
    ((target_size.1 - w).fdiv 2, (target_size.2 - h).fdiv 2)

/-- Primitives drawn for the placeholder label: each line is centered
horizontally and y advances by the line's own bbox height. -/
def labelOps (font : Font) (tw : Int) : List (List Char) → Int → List Prim
  | [], _ => []
  | line :: rest, y =>
    let bbox := font.getbbox line
    let w := bbox.2.2.1 - bbox.1
    Prim.text ((tw - w).fdiv 2, y) line [255, 255, 255] ::
      labelOps font tw rest (y + (bbox.2.2.2 - bbox.2.1))

/-- create_placeholder_panel from the source. The external library calls
load_font and textwrap.wrap are passed in as parameters fontFor (the font
loaded for a given size) and twrap (character-count word wrap at a given
width). -/
def create_placeholder_panel (color : Color) (target_size : Int × Int)
    (label : Option (List Char)) (fontFor : Int → Font)
    (twrap : List Char → Nat → List (List Char)) : Img :=
  let img := Img.new target_size (color ++ [255])
  match label with
  | none => img
  | some lab =>
    let font := fontFor ((min target_size.1 target_size.2).tdiv 10)
    let lines := twrap lab 20
    let line_h := (font.getbbox ['A', 'y']).2.2.2 -
      (font.getbbox ['A', 'y']).2.1
    let y := (target_size.2 - (lines.length : Int) * line_h).fdiv 2
    Img.drawn img (labelOps font target_size.1 lines y)

end ComicMaker

namespace ComicMaker

/-- C5: a panel built by create_panel_from_image or
create_placeholder_panel is exactly target-sized regardless of the source
aspect ratio; create_panel_from_image never upsamples the source beyond
its original resolution and pastes the thumbnail centered on a transparent
canvas. -/
theorem create_panel_spec (src : Img) (target : Int × Int)
    (hw : 1 ≤ src.size.1) (hh : 1 ≤ src.size.2)
    (hx : 1 ≤ target.1) (hy : 1 ≤ target.2) :
    (create_panel_from_image src target).size = target ∧
    (∀ color label fontFor twrap,
      (create_placeholder_panel color target label fontFor twrap).size =
        target) ∧
    ((Img.convertRGBA src).thumbnail target).size.1 ≤ src.size.1 ∧
    ((Img.convertRGBA src).thumbnail target).size.2 ≤ src.size.2 ∧
    create_panel_from_image src target =
      Img.pasted (Img.new target [255, 255, 255, 0])
        ((Img.convertRGBA src).thumbnail target)
        ((target.1 - ((Img.convertRGBA src).thumbnail target).size.1).fdiv 2,
          (target.2 - ((Img.convertRGBA src).thumbnail target).size.2).fdiv
            2) := by
  refine ⟨rfl, ?_, ?_, ?_, rfl⟩
  · intro color label fontFor twrap
    cases label with
    | none => rfl
    | some lab => rfl
  · exact (pilThumbSize_le src.size target hw hh hx hy).1
  · exact (pilThumbSize_le src.size target hw hh hx hy).2

/-- Witness for the panel size properties: a 700x500 source fitted into a
300x300 panel. -/
theorem create_panel_spec_witness :
    (create_panel_from_image (Img.file (700, 500)) (300, 300)).size =
        (300, 300) ∧
    ((Img.convertRGBA (Img.file (700, 500))).thumbnail (300, 300)).size.1 ≤
        700 ∧
    ((Img.convertRGBA (Img.file (700, 500))).thumbnail (300, 300)).size.2 ≤
        500 := by
  have h := create_panel_spec (Img.file (700, 500)) (300, 300)
    (by decide) (by decide) (by decide) (by decide)
  exact ⟨h.1, h.2.2.1, h.2.2.2.1⟩

/-- Page constants from the source. -/
def PAGE_WIDTH : Int := 2480

def PAGE_HEIGHT : Int := 3508

def PAGE_BG : Color := [255, 255, 255]

/-- Default image for the (guarded, hence unreachable) out-of-range list
access in the layout loop. -/
def dfltImg : Img := Img.new (0, 0) []

/-- The cell width layout_panels_on_page computes: floor division of the
usable width by the column count. -/
def cellW (pageW margin gutter : Int) (cols : Nat) : Int :=
  (pageW - 2 * margin - ((cols : Int) - 1) * gutter).fdiv (cols : Int)

/-- The cell height layout_panels_on_page computes. -/
def cellH (pageH margin gutter : Int) (rows : Nat) : Int :=
  (pageH - 2 * margin - ((rows : Int) - 1) * gutter).fdiv (rows : Int)

/-- One iteration of the cell loop: copy the panel, thumbnail the copy to
the cell size, and paste it centered in cell (r, c); idx advances by 1. -/
def placeCell (panels : List Img) (pw ph margin gutter : Int) (r c : Nat)
    (page : Img) (idx : Nat) : Img × Nat :=
  let panel := panels.getD idx dfltImg
  let panel_thumb := panel.thumbnail (pw, ph)
  let cell_x := margin + (c : Int) * (pw + gutter) +
    (pw - panel_thumb.size.1).fdiv 2
  let cell_y := margin + (r : Int) * (ph + gutter) +
    (ph - panel_thumb.size.2).fdiv 2
  let _border := Img.new (panel_thumb.size.1 + 8, panel_thumb.size.2 + 8)
    [0, 0, 0, 0]
  (Img.pasted page panel_thumb (cell_x, cell_y), idx + 1)

/-- The inner column loop, with its break once the panels are exhausted. -/
def layoutRowLoop (panels : List Img) (pw ph margin gutter : Int) (r : Nat) :
    List Nat → Img × Nat → Img × Nat
  | [], st => st
  | c :: cs, st =>
    if panels.length ≤ st.2 then st
    else layoutRowLoop panels pw ph margin gutter r cs
      (placeCell panels pw ph margin gutter r c st.1 st.2)

/-- The outer row loop. -/
def layoutRowsLoop (panels : List Img) (pw ph margin gutter : Int)
    (cols : Nat) : List Nat → Img × Nat → Img × Nat
  | [], st => st
  | r :: rs, st =>
    layoutRowsLoop panels pw ph margin gutter cols rs
      (layoutRowLoop panels pw ph margin gutter r (List.range cols) st)

/-- layout_panels_on_page from the source. -/
def layout_panels_on_page (panels : List Img) (page_size : Int × Int)
    (margin gutter : Int) (grid : Nat × Nat) : Img :=
  let cols := grid.1
  let rows := grid.2
  let pw := cellW page_size.1 margin gutter cols
  let ph := cellH page_size.2 margin gutter rows
  let page := Img.new page_size (PAGE_BG ++ [255])
  Img.convertRGB
    (layoutRowsLoop panels pw ph margin gutter cols (List.range rows)
      (page, 0)).1

/-- The pasted source images with their positions along an image's base
chain, first paste first. -/
def Img.placements : Img → List (Img × Int × Int)
  | .new _ _ => []
  | .file _ => []
  | .convertRGBA b => b.placements
  | .convertRGB b => b.placements
  | .resized b _ => b.placements
  | .pasted b s p => b.placements ++ [(s, p.1, p.2)]
  | .drawn b _ => b.placements

/-- The placement the composer produces for a panel in cell (r, c): the
thumbnail of the panel and its centered position. -/
def placeSpec (panel : Img) (pw ph margin gutter : Int) (r c : Nat) :
    Img × Int × Int :=
  let t := panel.thumbnail (pw, ph)
  (t,
    margin + (c : Int) * (pw + gutter) + (pw - t.size.1).fdiv 2,
    margin + (r : Int) * (ph + gutter) + (ph - t.size.2).fdiv 2)

theorem placeCell_eq (panels : List Img) (pw ph m g : Int) (r c : Nat)
    (page : Img) (idx : Nat) :
    (placeCell panels pw ph m g r c page idx).1.placements =
        page.placements ++ [placeSpec (panels.getD idx dfltImg) pw ph m g r c]
      ∧ (placeCell panels pw ph m g r c page idx).2 = idx + 1 :=
  ⟨rfl, rfl⟩

theorem layoutRowLoop_cons (panels : List Img) (pw ph m g : Int) (r c : Nat)
    (cs : List Nat) (page : Img) (idx : Nat) (h : idx < panels.length) :
    layoutRowLoop panels pw ph m g r (c :: cs) (page, idx) =
      layoutRowLoop panels pw ph m g r cs
        (placeCell panels pw ph m g r c page idx) := by
  simp only [layoutRowLoop]
  rw [if_neg (by omega : ¬ (panels.length ≤ idx))]

/-- Behaviour of the inner loop over a block of consecutive column indices
when enough panels remain: every cell is filled and idx advances by one per
cell. -/
theorem layoutRowLoop_range' (panels : List Img) (pw ph m g : Int)
    (r : Nat) :
    ∀ (k c idx : Nat) (page : Img), idx + k ≤ panels.length →
      (layoutRowLoop panels pw ph m g r (List.range' c k) (page, idx)).2 =
          idx + k ∧
      (layoutRowLoop panels pw ph m g r (List.range' c k)
          (page, idx)).1.placements =
        page.placements ++ (List.range k).map (fun j =>
          placeSpec (panels.getD (idx + j) dfltImg) pw ph m g r (c + j)) := by
  intro k
  induction k with
  | zero =>
    intro c idx page h
    constructor
    · show idx = idx + 0; omega
    · show page.placements = page.placements ++ (List.range 0).map _
      simp
  | succ k ih =>
    intro c idx page h
    have hrange : List.range' c (k + 1) = c :: List.range' (c + 1) k := rfl
    rw [hrange,
      layoutRowLoop_cons panels pw ph m g r c _ page idx (by omega)]
    obtain ⟨hpl, hidx⟩ := placeCell_eq panels pw ph m g r c page idx
    have heta : placeCell panels pw ph m g r c page idx =
        ((placeCell panels pw ph m g r c page idx).1, idx + 1) := rfl
    rw [heta]
    obtain ⟨ih2, ih1⟩ := ih (c + 1) (idx + 1)
      (placeCell panels pw ph m g r c page idx).1 (by omega)
    refine ⟨by rw [ih2]; omega, ?_⟩
    rw [ih1, hpl]
    rw [List.range_succ_eq_map, List.map_cons, List.map_map]
    have hfun : ((fun j => placeSpec (panels.getD (idx + j) dfltImg)
          pw ph m g r (c + j)) ∘ Nat.succ) =
        fun j => placeSpec (panels.getD (idx + 1 + j) dfltImg) pw ph m g r
          (c + 1 + j) := by
      funext j
      simp only [Function.comp]
      have h1 : idx + Nat.succ j = idx + 1 + j := by omega
      have h2 : c + Nat.succ j = c + 1 + j := by omega
      rw [h1, h2]
    rw [hfun]
    simp

/-- Behaviour of the outer loop over a block of consecutive row indices
when enough panels remain: rows are filled top to bottom, left to right,
consuming panels in order. -/
theorem layoutRowsLoop_range' (panels : List Img) (pw ph m g : Int)
    (cols : Nat) :
    ∀ (n r0 idx : Nat) (page : Img), idx + n * cols ≤ panels.length →
      (layoutRowsLoop panels pw ph m g cols (List.range' r0 n)
          (page, idx)).2 = idx + n * cols ∧
      (layoutRowsLoop panels pw ph m g cols (List.range' r0 n)
          (page, idx)).1.placements =
        page.placements ++ (List.range (n * cols)).map (fun j =>
          placeSpec (panels.getD (idx + j) dfltImg) pw ph m g
            (r0 + j / cols) (j % cols)) := by
  intro n
  induction n with
  | zero =>
    intro r0 idx page h
    constructor
    · show idx = idx + 0 * cols; omega
    · show page.placements = page.placements ++ (List.range (0 * cols)).map _
      simp
  | succ n ih =>
    intro r0 idx page h
    have hsm : (n + 1) * cols = cols + n * cols := by
      rw [Nat.succ_mul]; omega
    have hrange : List.range' r0 (n + 1) = r0 :: List.range' (r0 + 1) n := rfl
    have hcons : layoutRowsLoop panels pw ph m g cols
        (r0 :: List.range' (r0 + 1) n) (page, idx) =
        layoutRowsLoop panels pw ph m g cols (List.range' (r0 + 1) n)
          (layoutRowLoop panels pw ph m g r0 (List.range cols)
            (page, idx)) := rfl
    rw [hrange, hcons, List.range_eq_range']
    obtain ⟨hr2, hr1⟩ := layoutRowLoop_range' panels pw ph m g r0 cols 0 idx
      page (by omega)
    have heta : layoutRowLoop panels pw ph m g r0 (List.range' 0 cols)
        (page, idx) =
        ((layoutRowLoop panels pw ph m g r0 (List.range' 0 cols)
          (page, idx)).1, idx + cols) := by
      rw [← hr2]
    rw [heta]
    obtain ⟨ih2, ih1⟩ := ih (r0 + 1) (idx + cols)
      (layoutRowLoop panels pw ph m g r0 (List.range' 0 cols)
        (page, idx)).1 (by omega)
    constructor
    · rw [ih2]; omega
    · rw [ih1, hr1]
      rw [hsm, List.range_add, List.map_append, List.map_map,
        List.append_assoc]
      congr 1
      congr 1
      · apply List.map_congr_left
        intro j hj
        have hjc : j < cols := List.mem_range.1 hj
        have hd : j / cols = 0 := Nat.div_eq_of_lt hjc
        have hm : j % cols = j := Nat.mod_eq_of_lt hjc
        rw [hd, hm, Nat.add_zero, Nat.zero_add]
      · apply List.map_congr_left
        intro j hj
        simp only [Function.comp]
        have hcols : 0 < cols := by
          rcases Nat.eq_zero_or_pos cols with h0 | h0
          · subst h0; simp at hj
          · exact h0
        have hd : (cols + j) / cols = j / cols + 1 := by
          rw [Nat.add_comm cols j]
          exact Nat.add_div_right j hcols
        have hm : (cols + j) % cols = j % cols := Nat.add_mod_left cols j
        have h1 : idx + (cols + j) = idx + cols + j := by omega
        rw [hd, hm, h1]
        have h2 : r0 + (j / cols + 1) = r0 + 1 + j / cols := by omega
        rw [h2]

end ComicMaker

namespace ComicMaker

/-- C1: when the panel list is longer than the grid capacity, the page
holds exactly the first cols*rows panels, placed in row-major order (row
i / cols, column i % cols); the remaining panels are dropped and the layout
completes normally. -/
theorem layout_overflow_truncates (panels : List Img)
    (page_size : Int × Int) (margin gutter : Int) (cols rows : Nat)
    (hover : cols * rows < panels.length) :
    (layout_panels_on_page panels page_size margin gutter
        (cols, rows)).placements =
      (List.range (cols * rows)).map (fun i =>
        placeSpec (panels.getD i dfltImg)
          (cellW page_size.1 margin gutter cols)
          (cellH page_size.2 margin gutter rows)
          margin gutter (i / cols) (i % cols)) := by
  have hmul : rows * cols = cols * rows := Nat.mul_comm rows cols
  have hlayout : layout_panels_on_page panels page_size margin gutter
      (cols, rows) =
      Img.convertRGB
        (layoutRowsLoop panels (cellW page_size.1 margin gutter cols)
          (cellH page_size.2 margin gutter rows) margin gutter cols
          (List.range rows)
          (Img.new page_size (PAGE_BG ++ [255]), 0)).1 := rfl
  rw [hlayout]
  have hpl : ∀ b : Img, (Img.convertRGB b).placements = b.placements :=
    fun b => rfl
  rw [hpl, List.range_eq_range']
  obtain ⟨h2, h1⟩ := layoutRowsLoop_range' panels
    (cellW page_size.1 margin gutter cols)
    (cellH page_size.2 margin gutter rows) margin gutter cols rows 0 0
    (Img.new page_size (PAGE_BG ++ [255])) (by omega)
  rw [h1]
  have hbase : (Img.new page_size (PAGE_BG ++ [255])).placements = [] := rfl
  rw [hbase, List.nil_append, hmul]
  apply List.map_congr_left
  intro j hj
  rw [Nat.zero_add, Nat.zero_add]

/-- Witness for the overflow layout: seven panels into a 2x3 grid. -/
theorem layout_overflow_truncates_witness :
    (layout_panels_on_page
        (List.replicate 7 (Img.new (10, 10) [0, 0, 0]))
        (2480, 3508) 80 20 (2, 3)).placements =
      (List.range 6).map (fun i =>
        placeSpec ((List.replicate 7 (Img.new (10, 10) [0, 0, 0])).getD i
            dfltImg)
          (cellW 2480 80 20 2) (cellH 3508 80 20 3) 80 20
          (i / 2) (i % 2)) :=
  layout_overflow_truncates
    (List.replicate 7 (Img.new (10, 10) [0, 0, 0]))
    (2480, 3508) 80 20 2 3 (by decide)

/-- C2: with page size 2480x3508, margin 80, gutter 20 and a (2, 3) grid,
the computed cell size is exactly 1150 by 1102, and six panels are all
placed, in order, none dropped. -/
theorem layout_example_cells :
    cellW 2480 80 20 2 = 1150 ∧ cellH 3508 80 20 3 = 1102 ∧
    (layout_panels_on_page
        (List.replicate 6 (Img.new (1200, 900) [85, 107, 47]))
        (2480, 3508) 80 20 (2, 3)).placements =
      (List.range 6).map (fun i =>
        placeSpec (Img.new (1200, 900) [85, 107, 47]) 1150 1102 80 20
          (i / 2) (i % 2)) := by
  refine ⟨by decide, by decide, ?_⟩
  decide

/-- The PDF document produced by the export: its pages in order. -/
structure PdfDoc where
  pages : List Img
deriving DecidableEq

/-- save_pages_to_pdf from the source: convert every page to RGB, reject an
empty list with ValueError, then save the first page with the remaining
pages appended. The result models the written document and the returned
path. -/
def save_pages_to_pdf (pages : List Img) (out_pdf_path : String) :
    Except String (PdfDoc × String) :=
  let imgs := pages.map Img.convertRGB
  match imgs with
  | [] => Except.error ("No pages to save")
  | first :: rest => Except.ok (⟨first :: rest⟩, out_pdf_path)

/-- A filesystem effect performed by the PNG export. -/
inductive FsOp where
  | mkdirs (dir : String)
  | writePng (path : String) (img : Img)
deriving DecidableEq

/-- Python format "{:02d}" applied to a nonnegative index. -/
def pad2 (i : Nat) : String :=
  if i < 10 then "0" ++ toString i else toString i

/-- The loop of save_pages_as_images: save each page under the numbered
name and collect the paths; i is the 1-based enumerate counter. -/
def savePagesLoop (out_dir basename : String) :
    List Img → Nat → List FsOp × List String
  | [], _ => ([], [])
  | p :: ps, i =>
    let path := out_dir ++ "/" ++ basename ++ "_" ++ pad2 i ++ ".png"
    let rest := savePagesLoop out_dir basename ps (i + 1)
    (FsOp.writePng path p :: rest.1, path :: rest.2)

/-- save_pages_as_images from the source: ensure the directory exists
(os.makedirs with exist_ok), then write the numbered PNGs in input order;
returns the effect trace and the collected path list. -/
def save_pages_as_images (pages : List Img) (out_dir basename : String) :
    List FsOp × List String :=
  let rest := savePagesLoop out_dir basename pages 1
  (FsOp.mkdirs out_dir :: rest.1, rest.2)

theorem savePagesLoop_enumFrom (out_dir basename : String) :
    ∀ (ps : List Img) (i : Nat),
      (savePagesLoop out_dir basename ps i).1 =
        (List.enumFrom i ps).map (fun p =>
          FsOp.writePng
            (out_dir ++ "/" ++ basename ++ "_" ++ pad2 p.1 ++ ".png")
            p.2) := by
  intro ps
  induction ps with
  | nil => intro i; rfl
  | cons p ps ih =>
    intro i
    simp only [savePagesLoop, List.enumFrom_cons, List.map_cons]
    rw [ih (i + 1)]

end ComicMaker

namespace ComicMaker

/-- C4: PDF export raises the documented error exactly when the page list
is empty; a nonempty list of K pages yields one document holding the K
RGB-converted pages in input order. -/
theorem save_pages_to_pdf_spec (pages : List Img) (path : String) :
    (pages = [] →
      save_pages_to_pdf pages path = Except.error ("No pages to save")) ∧
    (pages ≠ [] →
      save_pages_to_pdf pages path =
        Except.ok (⟨pages.map Img.convertRGB⟩, path)) := by
  constructor
  · intro he
    subst he
    rfl
  · intro hne
    cases pages with
    | nil => exact absurd rfl hne
    | cons p ps => rfl

/-- Witness for the PDF export: the empty list fails, a one-page list
yields a one-page document. -/
theorem save_pages_to_pdf_spec_witness :
    save_pages_to_pdf [] ("out.pdf") = Except.error ("No pages to save") ∧
    save_pages_to_pdf [Img.new (10, 10) []] ("out.pdf") =
      Except.ok (⟨[Img.convertRGB (Img.new (10, 10) [])]⟩, "out.pdf") := by
  constructor
  · exact (save_pages_to_pdf_spec [] ("out.pdf")).1 rfl
  · exact (save_pages_to_pdf_spec [Img.new (10, 10) []] ("out.pdf")).2
      (by simp)

/-- C8: PNG export first ensures the target directory exists, then writes
exactly one PNG per page named basename_NN.png, 2-digit zero-padded index
starting at 1, in input order; an empty list writes no files. -/
theorem save_pages_as_images_spec (pages : List Img)
    (out_dir basename : String) :
    (save_pages_as_images pages out_dir basename).1 =
      FsOp.mkdirs out_dir ::
        (List.enumFrom 1 pages).map (fun p =>
          FsOp.writePng
            (out_dir ++ "/" ++ basename ++ "_" ++ pad2 p.1 ++ ".png")
            p.2) ∧
    (pages = [] →
      (save_pages_as_images pages out_dir basename).1 =
        [FsOp.mkdirs out_dir]) := by
  constructor
  · show FsOp.mkdirs out_dir :: (savePagesLoop out_dir basename pages 1).1 =
      _
    rw [savePagesLoop_enumFrom]
  · intro he
    subst he
    rfl

/-- Witness for the PNG export: two pages produce page_01.png and
page_02.png after the directory creation; the empty list writes nothing. -/
theorem save_pages_as_images_spec_witness :
    (save_pages_as_images [Img.new (1, 1) [], Img.new (2, 2) []]
        ("out") ("page")).1 =
      [FsOp.mkdirs ("out"),
        FsOp.writePng ("out/page_01.png") (Img.new (1, 1) []),
        FsOp.writePng ("out/page_02.png") (Img.new (2, 2) [])] ∧
    (save_pages_as_images [] ("out") ("page")).1 =
      [FsOp.mkdirs ("out")] := by
  constructor
  · rw [(save_pages_as_images_spec
      [Img.new (1, 1) [], Img.new (2, 2) []] ("out") ("page")).1]
    rfl
  · exact (save_pages_as_images_spec [] ("out") ("page")).2 rfl

/-- A heap of Pillow image objects: in-place mutation is modelled by
assignment at a reference. -/
structure Heap where
  mem : Nat → Img
  next : Nat

/-- Allocate a fresh image object, returning the new heap and the fresh
reference. -/
def Heap.alloc (h : Heap) (img : Img) : Heap × Nat :=
  (⟨fun q => if q = h.next then img else h.mem q, h.next + 1⟩, h.next)

/-- Overwrite the image object at a reference (in-place mutation). -/
def Heap.set (h : Heap) (r : Nat) (img : Img) : Heap :=
  ⟨fun q => if q = r then img else h.mem q, h.next⟩

/-- One cell iteration in the stateful embedding of the layout: panel.copy
allocates a fresh object, thumbnail mutates that copy in place, and
page.paste mutates the page object; the panel reference is only read. -/
def placeCellRef (panels : List Nat) (pw ph margin gutter : Int)
    (r c : Nat) (pageRef : Nat) (h : Heap) (idx : Nat) : Heap × Nat :=
  let panelRef := panels.getD idx 0
  let alloc1 := h.alloc (h.mem panelRef)
  let h1 := alloc1.1
  let tRef := alloc1.2
  let h2 := h1.set tRef ((h1.mem tRef).thumbnail (pw, ph))
  let t := h2.mem tRef
  let cell_x := margin + (c : Int) * (pw + gutter) +
    (pw - t.size.1).fdiv 2
  let cell_y := margin + (r : Int) * (ph + gutter) +
    (ph - t.size.2).fdiv 2
  let h3 := h2.set pageRef (Img.pasted (h2.mem pageRef) t (cell_x, cell_y))
  (h3, idx + 1)

/-- The inner column loop of the stateful embedding. -/
def layoutRowLoopRef (panels : List Nat) (pw ph margin gutter : Int)
    (r : Nat) (pageRef : Nat) : List Nat → Heap × Nat → Heap × Nat
  | [], st => st
  | c :: cs, st =>
    if panels.length ≤ st.2 then st
    else layoutRowLoopRef panels pw ph margin gutter r pageRef cs
      (placeCellRef panels pw ph margin gutter r c pageRef st.1 st.2)

/-- The outer row loop of the stateful embedding. -/
def layoutRowsLoopRef (panels : List Nat) (pw ph margin gutter : Int)
    (cols : Nat) (pageRef : Nat) : List Nat → Heap × Nat → Heap × Nat
  | [], st => st
  | r :: rs, st =>
    layoutRowsLoopRef panels pw ph margin gutter cols pageRef rs
      (layoutRowLoopRef panels pw ph margin gutter r pageRef
        (List.range cols) st)

/-- layout_panels_on_page in the stateful embedding: panels are references
into the heap; the page is a fresh allocation, and the final convert("RGB")
allocates the returned image. -/
def layout_panels_on_page_ref (panels : List Nat) (page_size : Int × Int)
    (margin gutter : Int) (grid : Nat × Nat) (h : Heap) : Heap × Nat :=
  let cols := grid.1
  let rows := grid.2
  let pw := cellW page_size.1 margin gutter cols
  let ph := cellH page_size.2 margin gutter rows
  let alloc1 := h.alloc (Img.new page_size (PAGE_BG ++ [255]))
  let h1 := alloc1.1
  let pageRef := alloc1.2
  let st2 := layoutRowsLoopRef panels pw ph margin gutter cols pageRef
    (List.range rows) (h1, 0)
  st2.1.alloc (Img.convertRGB (st2.1.mem pageRef))

theorem placeCellRef_frame (panels : List Nat) (pw ph m g : Int)
    (r c : Nat) (pageRef : Nat) (h : Heap) (idx : Nat) (n0 : Nat)
    (hn : n0 ≤ h.next) (hp : n0 ≤ pageRef) :
    n0 ≤ (placeCellRef panels pw ph m g r c pageRef h idx).1.next ∧
    ∀ q, q < n0 →
      (placeCellRef panels pw ph m g r c pageRef h idx).1.mem q =
        h.mem q := by
  constructor
  · show n0 ≤ h.next + 1
    omega
  · intro q hq
    have h1 : q ≠ pageRef := by omega
    have h2 : q ≠ h.next := by omega
    simp [placeCellRef, Heap.alloc, Heap.set, h1, h2]

theorem layoutRowLoopRef_frame (panels : List Nat) (pw ph m g : Int)
    (r : Nat) (pageRef : Nat) (n0 : Nat) (hp : n0 ≤ pageRef) :
    ∀ (cs : List Nat) (st : Heap × Nat), n0 ≤ st.1.next →
      n0 ≤ (layoutRowLoopRef panels pw ph m g r pageRef cs st).1.next ∧
      ∀ q, q < n0 →
        (layoutRowLoopRef panels pw ph m g r pageRef cs st).1.mem q =
          st.1.mem q := by
  intro cs
  induction cs with
  | nil => intro st hn; exact ⟨hn, fun q hq => rfl⟩
  | cons c cs ih =>
    intro st hn
    simp only [layoutRowLoopRef]
    by_cases hg : panels.length ≤ st.2
    · rw [if_pos hg]
      exact ⟨hn, fun q hq => rfl⟩
    · rw [if_neg hg]
      obtain ⟨f1, f2⟩ := placeCellRef_frame panels pw ph m g r c pageRef
        st.1 st.2 n0 hn hp
      obtain ⟨g1, g2⟩ :=
        ih (placeCellRef panels pw ph m g r c pageRef st.1 st.2) f1
      exact ⟨g1, fun q hq => by rw [g2 q hq, f2 q hq]⟩

theorem layoutRowsLoopRef_frame (panels : List Nat) (pw ph m g : Int)
    (cols : Nat) (pageRef : Nat) (n0 : Nat) (hp : n0 ≤ pageRef) :
    ∀ (rs : List Nat) (st : Heap × Nat), n0 ≤ st.1.next →
      n0 ≤ (layoutRowsLoopRef panels pw ph m g cols pageRef rs st).1.next ∧
      ∀ q, q < n0 →
        (layoutRowsLoopRef panels pw ph m g cols pageRef rs st).1.mem q =
          st.1.mem q := by
  intro rs
  induction rs with
  | nil => intro st hn; exact ⟨hn, fun q hq => rfl⟩
  | cons r rs ih =>
    intro st hn
    simp only [layoutRowsLoopRef]
    obtain ⟨f1, f2⟩ := layoutRowLoopRef_frame panels pw ph m g r pageRef
      n0 hp (List.range cols) st hn
    obtain ⟨g1, g2⟩ :=
      ih (layoutRowLoopRef panels pw ph m g r pageRef (List.range cols) st)
        f1
    exact ⟨g1, fun q hq => by rw [g2 q hq, f2 q hq]⟩

end ComicMaker

namespace ComicMaker

/-- C9: the layout never mutates any image in its input panel list: the
thumbnail downsample is applied to a freshly allocated copy, so every
pre-existing heap reference, in particular every input panel, still holds
its original image after the call. -/
theorem layout_ref_no_mutation (panels : List Nat) (page_size : Int × Int)
    (margin gutter : Int) (grid : Nat × Nat) (h : Heap)
    (hvalid : ∀ p ∈ panels, p < h.next) :
    ∀ p ∈ panels,
      (layout_panels_on_page_ref panels page_size margin gutter grid
          h).1.mem p = h.mem p := by
  intro p hmem
  have hlt : p < h.next := hvalid p hmem
  have hpr : (h.alloc (Img.new page_size (PAGE_BG ++ [255]))).2 = h.next :=
    rfl
  set h1 := (h.alloc (Img.new page_size (PAGE_BG ++ [255]))).1 with hh1
  have hn1 : h.next ≤ h1.next := by
    show h.next ≤ h.next + 1
    omega
  obtain ⟨f1, f2⟩ := layoutRowsLoopRef_frame panels
    (cellW page_size.1 margin gutter grid.1)
    (cellH page_size.2 margin gutter grid.2) margin gutter grid.1
    (h.alloc (Img.new page_size (PAGE_BG ++ [255]))).2 h.next
    (le_of_eq hpr.symm) (List.range grid.2) (h1, 0) hn1
  have hmem1 : h1.mem p = h.mem p := by
    show (if p = h.next then _ else h.mem p) = h.mem p
    rw [if_neg (by omega)]
  show (if p = (layoutRowsLoopRef panels
        (cellW page_size.1 margin gutter grid.1)
        (cellH page_size.2 margin gutter grid.2) margin gutter grid.1
        (h.alloc (Img.new page_size (PAGE_BG ++ [255]))).2
        (List.range grid.2) (h1, 0)).1.next
      then Img.convertRGB ((layoutRowsLoopRef panels
        (cellW page_size.1 margin gutter grid.1)
        (cellH page_size.2 margin gutter grid.2) margin gutter grid.1
        (h.alloc (Img.new page_size (PAGE_BG ++ [255]))).2
        (List.range grid.2) (h1, 0)).1.mem
          (h.alloc (Img.new page_size (PAGE_BG ++ [255]))).2)
      else (layoutRowsLoopRef panels
        (cellW page_size.1 margin gutter grid.1)
        (cellH page_size.2 margin gutter grid.2) margin gutter grid.1
        (h.alloc (Img.new page_size (PAGE_BG ++ [255]))).2
        (List.range grid.2) (h1, 0)).1.mem p) = h.mem p
  rw [if_neg (by omega), f2 p hlt, hmem1]

/-- Witness for the no-mutation property at a concrete two-panel heap:
panel reference 0 still holds its original image after the layout. -/
theorem layout_ref_no_mutation_witness :
    (layout_panels_on_page_ref [0, 1] (100, 100) 5 2 (1, 1)
        ⟨fun q => Img.file ((q : Int) + 3, 4), 2⟩).1.mem 0 =
      (⟨fun q => Img.file ((q : Int) + 3, 4), 2⟩ : Heap).mem 0 :=
  layout_ref_no_mutation [0, 1] (100, 100) 5 2 (1, 1) _ (by decide) 0
    (by decide)

end ComicMaker
